import Mathlib

/-!
Verification of the script-mining and attribute-resolution engine of
`proc.py` (VoidWarRef).  Python strings are modelled as `List Char`;
the Python functions `parse_gml`, `resolve_num`, `resolve_bool`,
`resolve_str`, `resolve_raw` and `hierarchy_for_object` are translated
one-to-one.  Unbounded Python recursion / `while True` loops are
modelled with an explicit fuel parameter: a `none` result means the
computation did not finish within the given fuel (for every fuel:
it never finishes).  Python exceptions are modelled with `Except`.
-/

abbrev PyStr := List Char

/-- Shorthand turning a Lean string literal into the `List Char` model. -/
def w (s : String) : PyStr := s.data

/-- Python `\w` for the ASCII range (`re` word character). -/
def isWordChar (c : Char) : Bool := c.isAlphanum || c = '_'

/-- Python `str.strip()` whitespace (ASCII range). -/
def isPySpace (c : Char) : Bool :=
  c = ' ' || c = '\t' || c = '\n' || c = '\r' || c = '\x0b' || c = '\x0c'

/-- Line terminators recognised by Python `str.splitlines`. -/
def isLineTerm (c : Char) : Bool :=
  c = '\n' || c = '\r' || c = '\x0b' || c = '\x0c' || c = '\x1c' ||
  c = '\x1d' || c = '\x1e' || c = '\x85' || c = '\u2028' || c = '\u2029'

/-- `leadsWith p l` iff `p` is a prefix of `l` (Python `str.startswith`). -/
def leadsWith : PyStr → PyStr → Bool
  | [], _ => true
  | _ :: _, [] => false
  | a :: ps, b :: ls => a = b && leadsWith ps ls

/-- Python `str.endswith`. -/
def trailsWith (p l : PyStr) : Bool := leadsWith p.reverse l.reverse

/-- Python `str.removeprefix`. -/
def pyDropPre (p l : PyStr) : PyStr := if leadsWith p l then l.drop p.length else l

/-- Python `str.removesuffix`. -/
def pyDropSuf (p l : PyStr) : PyStr :=
  if trailsWith p l then l.take (l.length - p.length) else l

/-- Worker for `pySplitlines`; `cur` is the line collected so far
(a `\r\n` pair counts as a single terminator). -/
def splitlinesGo : PyStr → PyStr → List PyStr
  | [], cur => if cur = [] then [] else [cur]
  | [c], cur => if isLineTerm c then [cur] else [cur ++ [c]]
  | c :: d :: rest, cur =>
    if c = '\r' && d = '\n' then cur :: splitlinesGo rest []
    else if isLineTerm c then cur :: splitlinesGo (d :: rest) []
    else splitlinesGo (d :: rest) (cur ++ [c])

/-- Python `str.splitlines()`. -/
def pySplitlines (s : PyStr) : List PyStr := splitlinesGo s []

/-- Python `str.split(sep, maxsplit = 1)` when the separator occurs
(`none` when it does not, i.e. the Python result has length 1). -/
def splitOnce (sep : PyStr) : PyStr → Option (PyStr × PyStr)
  | [] => none
  | c :: rest =>
    if sep ≠ [] ∧ leadsWith sep (c :: rest) = true then
      some ([], (c :: rest).drop sep.length)
    else
      (splitOnce sep rest).map fun ab => (c :: ab.1, ab.2)

/-- Worker for `pySplitAll` (the fuel is an upper bound on the length of
the remaining input, so the base case is never reached on a non-empty
remainder). -/
def splitAllGo (sep : PyStr) : Nat → PyStr → PyStr → List PyStr
  | 0, l, cur => [cur ++ l]
  | fuel + 1, l, cur =>
    match l with
    | [] => [cur]
    | c :: rest =>
      if sep ≠ [] ∧ leadsWith sep (c :: rest) = true then
        cur :: splitAllGo sep fuel ((c :: rest).drop sep.length) []
      else
        splitAllGo sep fuel rest (cur ++ [c])

/-- Python `str.split(sep)` (all occurrences, empty parts kept). -/
def pySplitAll (sep l : PyStr) : List PyStr := splitAllGo sep l.length l []

/-- Worker for `replaceAll`, same fuel discipline as `splitAllGo`. -/
def replaceAllGo (pat rep : PyStr) : Nat → PyStr → PyStr
  | 0, l => l
  | fuel + 1, l =>
    match l with
    | [] => []
    | c :: rest =>
      if pat ≠ [] ∧ leadsWith pat (c :: rest) = true then
        rep ++ replaceAllGo pat rep fuel ((c :: rest).drop pat.length)
      else
        c :: replaceAllGo pat rep fuel rest

/-- Python `str.replace(pat, rep)` for a non-empty pattern. -/
def replaceAll (pat rep l : PyStr) : PyStr := replaceAllGo pat rep l.length l

/-- Python `str.strip()`. -/
def pyStrip (l : PyStr) : PyStr :=
  ((l.dropWhile isPySpace).reverse.dropWhile isPySpace).reverse

/-- Worker for `natDigs` (the fuel dominates the number, so the base
case is never reached). -/
def natDigsGo : Nat → Nat → PyStr
  | 0, _ => []
  | fuel + 1, n =>
    if n < 10 then [Char.ofNat (48 + n)]
    else natDigsGo fuel (n / 10) ++ [Char.ofNat (48 + n % 10)]

/-- Decimal digits of a natural number, most significant first
(Python `str` of a non-negative `int`). -/
def natDigs (n : Nat) : PyStr := natDigsGo (n + 1) n

/-- Python `str` of an `int`. -/
def intToStr : Int → PyStr
  | Int.ofNat m => natDigs m
  | Int.negSucc m => '-' :: natDigs (m + 1)

/-- One recorded function-call statement (`{"fn": ..., "args": ...}`). -/
structure CallInv where
  fn : PyStr
  args : List PyStr
deriving DecidableEq

/-- The result of `parse_gml`: the assignment table (the Python dict
minus its special `__calls` entry) and the ordered call list. -/
structure GRec where
  tbl : List (PyStr × PyStr)
  calls : List CallInv
deriving DecidableEq

/-- Python dict assignment `d[k] = v`: overwrite in place, else append. -/
def updIns (k v : PyStr) : List (PyStr × PyStr) → List (PyStr × PyStr)
  | [] => [(k, v)]
  | (k0, v0) :: t => if k0 = k then (k0, v) :: t else (k0, v0) :: updIns k v t

/-- Python dict `.get`. -/
def dictGet (d : List (PyStr × PyStr)) (k : PyStr) : Option PyStr :=
  match d with
  | [] => none
  | (k0, v0) :: t => if k0 = k then some v0 else dictGet t k

/-- The regex `^([\w_]+)\((.+)\)$` of `parse_gml`: function name and the
raw text between the first parenthesis and the final character. -/
def callMatch (l : PyStr) : Option (PyStr × PyStr) :=
  let wp := l.takeWhile isWordChar
  if wp = [] then none
  else
    match l.drop wp.length with
    | c :: rest =>
      if c = '(' ∧ 2 ≤ rest.length ∧ rest.getLast? = some ')' then some (wp, rest.dropLast)
      else none
    | [] => none

/-- The regex `^([\w_]+)\[(\d+)\]$` of `parse_gml` (indexed assignment target). -/
def idxMatch (k : PyStr) : Option (PyStr × Nat) :=
  let nm := k.takeWhile isWordChar
  if nm = [] then none
  else
    match k.drop nm.length with
    | c :: rest =>
      if c = '[' ∧ rest.getLast? = some ']' ∧ rest.dropLast ≠ [] ∧
          rest.dropLast.all Char.isDigit then
        some (nm, (rest.dropLast.foldl (fun a x => 10 * a + (x.toNat - 48)) 0))
      else none
    | [] => none

/-- The argument-splitting loop of `parse_gml`: splits on commas while a
single boolean `nested_fn` flag is down; the flag rises at a `(` seen while
down and falls at the next `)`.  `seg` is the current segment
(`fn_args_str[cur_i:i]`). -/
def splitCallArgsGo : PyStr → Bool → PyStr → List PyStr
  | [], _, _ => []
  | c :: rest, nested, seg =>
    let n1 := if !nested && c = '(' then true else nested
    let n2 := if n1 && c = ')' then false else n1
    if !n2 && c = ',' then
      if rest = [] then [pyStrip seg]
      else pyStrip seg :: splitCallArgsGo rest n2 []
    else if rest = [] then [pyStrip (seg ++ [c])]
    else splitCallArgsGo rest n2 (seg ++ [c])

/-- The full argument split (`fn_args` accumulation of `parse_gml`). -/
def splitCallArgs (s : PyStr) : List PyStr := splitCallArgsGo s false []

/-- `line.removeprefix("var ")` then `line.removesuffix(";")`. -/
def stripLine (l : PyStr) : PyStr := pyDropSuf (w ";") (pyDropPre (w "var ") l)

/-- The per-line body of the `parse_gml` loop (for a line that is not the
standalone `return`). -/
def lineStep (r : GRec) (l0 : PyStr) : GRec :=
  if (stripLine l0).head? = some ' ' then r
  else
    match callMatch (stripLine l0) with
    | some (fn, argstr) => { r with calls := r.calls ++ [⟨fn, splitCallArgs argstr⟩] }
    | none =>
      match splitOnce (w " = ") (stripLine l0) with
      | some (k, v) =>
        match idxMatch k with
        | some (nm, n) => { r with tbl := updIns (nm ++ ':' :: natDigs n) v r.tbl }
        | none => { r with tbl := updIns k v r.tbl }
      | none => r

/-- The `parse_gml` line loop (stops at a standalone `return` line). -/
def parseLines (r : GRec) : List PyStr → GRec
  | [] => r
  | l :: rest => if l = w "return" then r else parseLines (lineStep r l) rest

/-- `parse_gml` from `proc.py`. -/
def parse_gml (s : PyStr) : GRec := parseLines ⟨[], []⟩ (pySplitlines s)

/-- Join lines with a newline character. -/
def joinNL : List PyStr → PyStr
  | [] => []
  | l :: rest => if rest.isEmpty then l else l ++ '\n' :: joinNL rest

/-- Claim C8's trivial re-serialization of a values map: each entry becomes
the line `key = value`. -/
def serTbl (tbl : List (PyStr × PyStr)) : PyStr :=
  joinNL (tbl.map fun kv => kv.1 ++ w " = " ++ kv.2)

/-- The shape invariant of one tokenizer-produced assignment entry: the
key is non-empty and does not begin with a space, re-serializing it splits
back at the same place, the re-serialized line is not call-shaped, the key
is not index-shaped, and neither side contains a line terminator. -/
def GoodKV (k v : PyStr) : Prop :=
  k ≠ [] ∧ k.head? ≠ some ' ' ∧
  splitOnce (w " = ") (k ++ w " = " ++ v) = some (k, v) ∧
  callMatch (k ++ w " = " ++ v) = none ∧
  idxMatch k = none ∧
  (∀ c ∈ k, isLineTerm c = false) ∧ (∀ c ∈ v, isLineTerm c = false)

/-- The invariant of a tokenizer-produced values map: every entry is
well-shaped and the keys are distinct. -/
def GoodTbl (tbl : List (PyStr × PyStr)) : Prop :=
  (∀ kv ∈ tbl, GoodKV kv.1 kv.2) ∧ (tbl.map Prod.fst).Nodup

/-! ## The attribute resolvers -/

/-- `var_name.split(":")[0]`. -/
def colonHead (s : PyStr) : PyStr := s.takeWhile (fun c => c ≠ ':')

/-- The effective lookup key: `name:index` when `index > -1`
(`var_name.split(":")[0] + ":" + str(index)`), else the name itself. -/
def effKey (name : PyStr) (idx : Int) : PyStr :=
  if idx > -1 then colonHead name ++ ':' :: intToStr idx else name

/-- The `parsed_code` table.  `parse_object_code` fills it for every key of
the parent map, and the resolvers are only reached with hierarchy members,
which all are such keys; the model therefore gives every object a record
(empty by default), so the `parsed_code[obj]` lookup never fails. -/
abbrev Env := PyStr → List (PyStr × PyStr)

/-- The regex `^-?\d+\.\d+$` of `resolve_num`, which is also the regex
`^-?\d+(\.\d+)$` of `resolve_str` (there the group is not optional, so both
require the fractional part). -/
def isFloatLit (s : PyStr) : Bool :=
  let t := if leadsWith (w "-") s then s.drop 1 else s
  let d1 := t.takeWhile Char.isDigit
  !d1.isEmpty &&
    (match t.drop d1.length with
     | '.' :: r => !r.isEmpty && r.all Char.isDigit
     | _ => false)

/-- The regex `^-?\d+$` of `resolve_num`. -/
def isIntLit (s : PyStr) : Bool :=
  let t := if leadsWith (w "-") s then s.drop 1 else s
  !t.isEmpty && t.all Char.isDigit

/-- Numeric value of a digit string. -/
def natOfDigs (s : PyStr) : Nat := s.foldl (fun a c => 10 * a + (c.toNat - 48)) 0

/-- Python `int(s)` for a matched integer literal. -/
def parseIntLit (s : PyStr) : Int :=
  if leadsWith (w "-") s then -(natOfDigs (s.drop 1) : Int) else (natOfDigs s : Int)

/-- A value returned by `resolve_num`: a Python `int`, or a Python `float`
represented by the literal text it was parsed from. -/
inductive NumV where
  | iv : Int → NumV
  | fv : PyStr → NumV
deriving DecidableEq

/-- Drop leading zeros of a digit string, keeping at least one digit. -/
def dropLeadZeros (s : PyStr) : PyStr :=
  match s.dropWhile (fun c => c = '0') with
  | [] => ['0']
  | r => r

/-- Drop trailing zeros of a digit string, keeping at least one digit. -/
def dropTrailZeros (s : PyStr) : PyStr := (dropLeadZeros s.reverse).reverse

/-- Python `str` of a `float` parsed from a `-?\d+\.\d+` literal: CPython
prints the shortest round-trip decimal, which for the short literals that
occur here is the literal with leading zeros of the integer part and
trailing zeros of the fractional part removed (exponent notation and
17-significant-digit rounding do not arise in any property proved below). -/
def floatReprPos (t : PyStr) : PyStr :=
  let ip := t.takeWhile Char.isDigit
  dropLeadZeros ip ++ '.' :: dropTrailZeros (t.drop (ip.length + 1))

/-- `floatRepr` with the sign handled (see `floatReprPos`). -/
def floatRepr (s : PyStr) : PyStr :=
  if leadsWith (w "-") s then '-' :: floatReprPos (s.drop 1) else floatReprPos s

/-- Python `str` of a resolved numeric value. -/
def numStr : NumV → PyStr
  | .iv n => intToStr n
  | .fv s => floatRepr s

/-- Python truthiness of a numeric value (`0` and `0.0` are falsy). -/
def numTruthy : NumV → Bool
  | .iv n => decide (n ≠ 0)
  | .fv s => s.any fun c => c.isDigit && c ≠ '0'

/-- The decorative-token stripping of `resolve_num`:
`.replace("room_speed", "").replace("*", "").replace("/", "").strip()`. -/
def stripNum (v : PyStr) : PyStr :=
  pyStrip (replaceAll (w "/") []
    (replaceAll (w "*") [] (replaceAll (w "room_speed") [] v)))

/-- `resolve_num` from `proc.py`, with fuel modelling the Python call
stack: `none` means the recursion did not finish within `fuel` calls. -/
def resolve_num (env : Env) : Nat → List PyStr → PyStr → Int → Option (Option NumV)
  | 0, _, _, _ => none
  | fuel + 1, objs, name, idx =>
    match objs with
    | [] => some none
    | o :: rest =>
      let name1 := effKey name idx
      match dictGet (env o) name1 with
      | some v =>
        if v ≠ [] then
          let v1 := stripNum v
          if isFloatLit v1 then some (some (.fv v1))
          else if isIntLit v1 then some (some (.iv (parseIntLit v1)))
          else resolve_num env fuel (o :: rest) v1 (-1)
        else resolve_num env fuel rest name1 idx
      | none => resolve_num env fuel rest name1 idx

/-- `resolve_bool` from `proc.py`.  The source's dead disjunct
(`var_val == "false" or var_val == "1"`, unreachable because the first
branch already took `"1"`) is kept as written.  The source's
`isinstance(var_val, list)` adjustment cannot fire in this model, where
every stored value is a string. -/
def resolve_bool (env : Env) : Nat → List PyStr → PyStr → Int → Option (Option Bool)
  | 0, _, _, _ => none
  | fuel + 1, objs, name, idx =>
    match objs with
    | [] => some none
    | o :: rest =>
      let name1 := effKey name idx
      match dictGet (env o) name1 with
      | some v =>
        if v = w "true" ∨ v = w "1" then some (some true)
        else if v = w "false" ∨ v = w "1" then some (some false)
        else resolve_bool env fuel (o :: rest) v (-1)
      | none => resolve_bool env fuel rest name1 idx

/-- `resolve_raw` from `proc.py` (a plain loop, no recursion, total). -/
def resolve_raw (env : Env) : List PyStr → PyStr → Int → Option PyStr
  | [], _, _ => none
  | o :: rest, name, idx =>
    let name1 := effKey name idx
    match dictGet (env o) name1 with
    | some v => if v ≠ [] then some v else resolve_raw env rest name1 idx
    | none => resolve_raw env rest name1 idx

/-- Python exceptions that the modelled code can raise. -/
inductive PyErr where
  | indexError
  | keyError
deriving DecidableEq

deriving instance DecidableEq for Except

/-- The per-part post-processing of `resolve_str` (line applied to every
resolved `add_val`):
`.removesuffix("\\n").replace("\\\"", "\"").replace("\\n\\n", "; ").replace("\\n", "; ")`. -/
def postProc (s : PyStr) : PyStr :=
  replaceAll (w "\\n") (w "; ")
    (replaceAll (w "\\n\\n") (w "; ")
      (replaceAll (w "\\\"") (w "\"") (pyDropSuf (w "\\n") s)))

/-- The regex `^string\((.+)\)$`: the text between `string(` and the final
`)` when the part has that shape. -/
def stringFnInner (p : PyStr) : Option PyStr :=
  if leadsWith (w "string(") p = true ∧ p.getLast? = some ')' ∧ 9 ≤ p.length then
    some ((p.drop 7).dropLast)
  else none

/-- The regex `^"([^"]+)", (\w+)$` applied to the inner text of a
`string(...)` part: a quoted template and a word argument name. -/
def fmtMatch (inner : PyStr) : Option (PyStr × PyStr) :=
  match inner with
  | '"' :: rest =>
    let tpl := rest.takeWhile (fun c => c ≠ '"')
    if tpl.isEmpty then none
    else
      match rest.drop tpl.length with
      | '"' :: ',' :: ' ' :: arg =>
        if !arg.isEmpty && arg.all isWordChar then some (tpl, arg) else none
      | _ => none
  | _ => none

/-- The regex `^\w+\((.+)\)$` (generic call-shaped part). -/
def fnShape (p : PyStr) : Bool :=
  let wp := p.takeWhile isWordChar
  !wp.isEmpty &&
    (match p.drop wp.length with
     | '(' :: rest => decide (2 ≤ rest.length) && decide (rest.getLast? = some ')')
     | _ => false)

/-- Python `str(arg_val)` where `arg_val` is a resolved string or `None`. -/
def optValStr : Option PyStr → PyStr
  | some s => s
  | none => w "None"

/-- The body of the per-part loop of `resolve_str`: classification of one
part `p` and computation of its contribution, post-processed when resolved
and the verbatim part text otherwise.  `rn` and `rs` are `resolve_num` and
`resolve_str` on the same hierarchy with the remaining fuel. -/
def partStep (rn : PyStr → Option (Option NumV))
    (rs : PyStr → Option (Except PyErr (Option PyStr))) (p : PyStr) :
    Option (Except PyErr PyStr) :=
  if p.isEmpty then some (.error .indexError)
  else if p.head? = some '"' ∧ p.getLast? = some '"' then
    some (.ok (postProc ((p.drop 1).dropLast)))
  else if isFloatLit p then some (.ok (postProc p))
  else
    match stringFnInner p with
    | some inner =>
      match fmtMatch inner with
      | some (tpl, arg) =>
        match rn arg with
        | none => none
        | some (some nv) => some (.ok (postProc (replaceAll (w "{0}") (numStr nv) tpl)))
        | some none =>
          match rs arg with
          | none => none
          | some (.error e) => some (.error e)
          | some (.ok sv) => some (.ok (postProc (replaceAll (w "{0}") (optValStr sv) tpl)))
      | none =>
        match rn inner with
        | none => none
        | some (some nv) =>
          if numTruthy nv then some (.ok (postProc (numStr nv))) else some (.ok p)
        | some none => some (.ok p)
    | none =>
      if fnShape p then some (.ok (postProc p))
      else
        match rs p with
        | none => none
        | some (.error e) => some (.error e)
        | some (.ok (some s)) => some (.ok (postProc s))
        | some (.ok none) => some (.ok p)

/-- The part loop of `resolve_str` (sequential, first exception aborts). -/
def partsFold (rn : PyStr → Option (Option NumV))
    (rs : PyStr → Option (Except PyErr (Option PyStr))) :
    List PyStr → Option (Except PyErr (List PyStr))
  | [] => some (.ok [])
  | p :: rest =>
    match partStep rn rs p with
    | none => none
    | some (.error e) => some (.error e)
    | some (.ok s) =>
      match partsFold rn rs rest with
      | none => none
      | some (.error e) => some (.error e)
      | some (.ok ss) => some (.ok (s :: ss))

/-- `resolve_str` from `proc.py`.  The outer `Option` is fuel exhaustion
(the recursion never returns), `Except` a propagating Python exception,
and the inner `Option` the Python `None` (Absent) result. -/
def resolve_str (env : Env) : Nat → List PyStr → PyStr → Int →
    Option (Except PyErr (Option PyStr))
  | 0, _, _, _ => none
  | fuel + 1, objs, name, idx =>
    match objs with
    | [] => some (.ok none)
    | o :: rest =>
      let name1 := effKey name idx
      match dictGet (env o) name1 with
      | some v =>
        if v ≠ [] then
          match partsFold (fun nm => resolve_num env fuel (o :: rest) nm (-1))
              (fun nm => resolve_str env fuel (o :: rest) nm (-1))
              (pySplitAll (w " + ") v) with
          | none => none
          | some (.error e) => some (.error e)
          | some (.ok ss) => some (.ok (some ss.flatten))
        else resolve_str env fuel rest name1 idx
      | none => resolve_str env fuel rest name1 idx

/-- The loop of `hierarchy_for_object`: `acc` is `obj_list`, `cur` the
current tail.  `pmap cur = none` models a missing key (Python `KeyError`);
`pmap cur = some none` a stored null parent. -/
def hierGo (pmap : PyStr → Option (Option PyStr)) :
    Nat → List PyStr → PyStr → Option (Except PyErr (List PyStr))
  | 0, _, _ => none
  | fuel + 1, acc, cur =>
    match pmap cur with
    | none => some (.error .keyError)
    | some (some p) =>
      if p ≠ [] ∧ p ≠ w "__NONE__" ∧ p ≠ w "oSaveObject" then
        hierGo pmap fuel (acc ++ [p]) p
      else some (.ok acc)
    | some none => some (.ok acc)

/-- `hierarchy_for_object` from `proc.py` (fuel bounds the `while True`
loop: `none` means it never exits). -/
def hierarchy_for_object (pmap : PyStr → Option (Option PyStr)) (fuel : Nat)
    (obj : PyStr) : Option (Except PyErr (List PyStr)) :=
  hierGo pmap fuel [obj] obj

/-! ## Chain search and claim-specific inputs -/

/-- The shared chain search: the raw value at the first record of the
hierarchy in which the key is present (spec section 4.3). -/
def chainGet (env : Env) (key : PyStr) : List PyStr → Option PyStr
  | [] => none
  | o :: rest =>
    match dictGet (env o) key with
    | some v => some v
    | none => chainGet env key rest

/-- Record set with the stored value `"a + "` (producible from the script
line `x = a + `), whose `" + "` split has an empty part. -/
def envC1 : Env := fun o => if o = w "objA" then [(w "x", w "a + ")] else []

/-- Record set with the alias cycle `a = b`, `b = a`. -/
def envC2 : Env := fun o => if o = w "objA" then [(w "a", w "b"), (w "b", w "a")] else []

/-- The tokenizer input of claim C3. -/
def c3line : PyStr := w "x(1, foo(2, 3), \"a,b\")"

/-- Record set exercising the string post-processing cases of claim C4. -/
def envC4 : Env := fun o =>
  if o = w "objA" then
    [(w "desc", w "\"line1\\n\" + \"line2\""),
     (w "trail", w "\"end\\n\""),
     (w "dbl", w "\"a\\n\\nb\""),
     (w "sngl", w "\"a\\nb\""),
     (w "fb", w "qq\\n + \"z\"")]
  else []

/-- Record set for claim C5: the nearest record stores the empty string,
a farther one stores a non-empty value. -/
def envC5 : Env := fun o =>
  if o = w "objA" then [(w "k", w "")]
  else if o = w "objB" then [(w "k", w "v")] else []

/-- Record set for claim C6. -/
def envC6 : Env := fun o =>
  if o = w "objA" then [(w "flag", w "true"), (w "mflag", w "maybe")] else []

/-- Record set for claim C10: an indexed key aliasing `b`, where both `b`
and `b:0` are defined with different values. -/
def envC10 : Env := fun o =>
  if o = w "objA" then [(w "a:0", w "b"), (w "b", w "5"), (w "b:0", w "7")] else []

/-- Parent table for claim C9's counterexample: `objA` is present, its
parent `objB` is a value but not a key. -/
def pmC9bad : PyStr → Option (Option PyStr) := fun o =>
  if o = w "objA" then some (some (w "objB")) else none

/-- Parent table for claim C9's witness: a two-element chain ended by the
`"__NONE__"` sentinel. -/
def pmC9ok : PyStr → Option (Option PyStr) := fun o =>
  if o = w "objA" then some (some (w "objB"))
  else if o = w "objB" then some (some (w "__NONE__")) else none

/-! ## Helper lemmas -/

theorem takeWhile_append_of_stop {p : Char → Bool} :
    ∀ (a : PyStr) (c : Char) (b : PyStr), (∀ x ∈ a, p x = true) → p c = false →
      (a ++ c :: b).takeWhile p = a := by
  intro a c b ha hc
  induction a with
  | nil => simp [List.takeWhile, hc]
  | cons x xs ih =>
    have hx : p x = true := ha x (by simp)
    simp only [List.cons_append, List.takeWhile, hx, List.append_eq]
    rw [ih (fun y hy => ha y (by simp [hy]))]

theorem mem_of_takeWhile {p : Char → Bool} :
    ∀ (l : PyStr) (c : Char), c ∈ l.takeWhile p → p c = true := by
  intro l
  induction l with
  | nil => intro c h; simp [List.takeWhile] at h
  | cons x xs ih =>
    intro c h
    by_cases hx : p x = true
    · simp only [List.takeWhile, hx, cond_true, List.mem_cons] at h
      rcases h with h | h
      · exact h ▸ hx
      · exact ih c h
    · simp only [List.takeWhile, Bool.not_eq_true] at hx
      simp [List.takeWhile, hx] at h

theorem mem_of_mem_takeWhile {p : Char → Bool} :
    ∀ (l : PyStr) (c : Char), c ∈ l.takeWhile p → c ∈ l := by
  intro l
  induction l with
  | nil => intro c h; simp [List.takeWhile] at h
  | cons x xs ih =>
    intro c h
    by_cases hx : p x = true
    · simp only [List.takeWhile, hx, cond_true, List.mem_cons] at h
      rcases h with h | h
      · simp [h]
      · simp [ih c h]
    · simp only [List.takeWhile, Bool.not_eq_true] at hx
      simp [List.takeWhile, hx] at h

theorem colonHead_stable (name : PyStr) (r : PyStr) :
    colonHead (colonHead name ++ ':' :: r) = colonHead name := by
  unfold colonHead
  apply takeWhile_append_of_stop
  · intro x hx
    exact mem_of_takeWhile name x hx
  · simp

theorem effKey_idem (name : PyStr) (idx : Int) :
    effKey (effKey name idx) idx = effKey name idx := by
  unfold effKey
  by_cases h : idx > -1
  · simp only [h, if_true]
    rw [colonHead_stable]
  · simp [h]

/-! ## Claim theorems -/

/-- Claim C1: the claim states that every resolver entry point returns
normally on every input.  The code violates this: on the stored value
`"a + "` (tokenized from the script line `x = a + `), the `" + "` split of
`resolve_str` contains an empty part and the `p[0]` access raises an
`IndexError`.  The theorem evaluates the model at that failing input. -/
theorem c1_resolve_str_raises_index_error :
    (parse_gml (w "x = a + ")).tbl = [(w "x", w "a + ")] ∧
    resolve_str envC1 4 [w "objA"] (w "x") (-1) = some (.error .indexError) := by
  decide

/-- Claim C2: the claim states that `resolve_num` terminates on the alias
cycle `a = b`, `b = a` thanks to an explicit recursion-depth limit.  The
code has no such limit: for every fuel value the modelled recursion runs
out of fuel on both keys, i.e. the Python recursion never returns (it
aborts with a `RecursionError` when the interpreter stack is exhausted). -/
theorem c2_resolve_num_cycle_never_terminates :
    ∀ fuel : Nat,
      resolve_num envC2 fuel [w "objA"] (w "a") (-1) = none ∧
      resolve_num envC2 fuel [w "objA"] (w "b") (-1) = none := by
  intro fuel
  induction fuel with
  | zero => exact ⟨rfl, rfl⟩
  | succ n ih => exact ⟨ih.2, ih.1⟩

/-- Claim C3 counterexample: the line `x(1, foo(2, 3), "a,b")` does not
tokenize to a call with 3 arguments — the comma inside the quoted string
also splits (quotes are not tracked), giving 4 arguments. -/
theorem c3_counterexample :
    ((parse_gml c3line).calls.map fun c => (c.fn, c.args.length)) = [(w "x", 4)] ∧
    ((w "x", 4) : PyStr × Nat) ≠ (w "x", 3) := by
  decide

/-- Claim C3 amended: the line `x(1, foo(2, 3), "a,b")` yields exactly one
Call Invocation named `x` with the 4 arguments `1`, `foo(2, 3)`, `"a` and
`b"`: the nested call is preserved unsplit by the boolean nesting flag, but
the comma inside the quoted string splits, because only parentheses (one
level, via a boolean flag rather than a depth counter) are tracked. -/
theorem c3_call_args_boolean_flag_split :
    (parse_gml c3line).calls =
      [⟨w "x", [w "1", w "foo(2, 3)", w "\"a", w "b\""]⟩] ∧
    (parse_gml c3line).tbl = [] := by
  decide

/-- Claim C4 counterexample: for `desc = "line1\n" + "line2"` the claim
(post-processing applied once to the concatenated string) predicts
`line1; line2`; the code post-processes each part separately, so the
part-final line-break marker is dropped by `removesuffix` and the result
is `line1line2`. -/
theorem c4_counterexample :
    resolve_str envC4 4 [w "objA"] (w "desc") (-1) = some (.ok (some (w "line1line2"))) ∧
    w "line1line2" ≠ w "line1; line2" := by
  decide

/-- Claim C4 amended: the post-processing is applied to each resolved part
separately (and not at all to fallback parts): a line-break marker ending a
part is dropped, doubled and single markers inside one part collapse to
`"; "`, and a marker inside an unresolvable fallback part is preserved
verbatim. -/
theorem c4_per_part_postprocessing :
    resolve_str envC4 4 [w "objA"] (w "trail") (-1) = some (.ok (some (w "end"))) ∧
    resolve_str envC4 4 [w "objA"] (w "dbl") (-1) = some (.ok (some (w "a; b"))) ∧
    resolve_str envC4 4 [w "objA"] (w "sngl") (-1) = some (.ok (some (w "a; b"))) ∧
    resolve_str envC4 4 [w "objA"] (w "fb") (-1) = some (.ok (some (w "qq\\nz"))) := by
  decide

/-- Claim C10: when an indexed lookup (`index ≥ 0`) finds a non-literal
(alias) value `v` at the nearest record, the recursive resolution looks up
the alias as an un-indexed key: `resolve_num` recurses on the stripped
alias text with index `-1`, and `resolve_bool` on the raw alias text with
index `-1`.  The closing conjuncts evaluate the distinguishing input of
`envC10`: `a:0 = b` resolves through `b = 5`, not through `b:0 = 7`. -/
theorem c10_alias_lookup_drops_index (env : Env) (o : PyStr) (rest : List PyStr)
    (name v : PyStr) (idx : Int) (fuel : Nat)
    (hidx : idx > -1)
    (hget : dictGet (env o) (effKey name idx) = some v)
    (hv : v ≠ [])
    (hnf : isFloatLit (stripNum v) = false)
    (hni : isIntLit (stripNum v) = false)
    (hnb : v ≠ w "true" ∧ v ≠ w "1" ∧ v ≠ w "false") :
    resolve_num env (fuel + 1) (o :: rest) name idx =
      resolve_num env fuel (o :: rest) (stripNum v) (-1) ∧
    resolve_bool env (fuel + 1) (o :: rest) name idx =
      resolve_bool env fuel (o :: rest) v (-1) ∧
    resolve_num envC10 3 [w "objA"] (w "a") 0 = some (some (.iv 5)) ∧
    dictGet (envC10 (w "objA")) (w "b:0") = some (w "7") := by
  refine ⟨?_, ?_, by decide, by decide⟩
  · simp [resolve_num, hget, hv, hnf, hni]
  · simp [resolve_bool, hget, hnb.1, hnb.2.1, hnb.2.2]

/-- Witness for `c10_alias_lookup_drops_index` at the record set `envC10`
(`a:0 = b`, a non-literal alias, with index 0). -/
theorem c10_alias_lookup_drops_index_witness :
    resolve_num envC10 (2 + 1) [w "objA"] (w "a") 0 =
      resolve_num envC10 2 [w "objA"] (stripNum (w "b")) (-1) ∧
    resolve_bool envC10 (2 + 1) [w "objA"] (w "a") 0 =
      resolve_bool envC10 2 [w "objA"] (w "b") (-1) ∧
    resolve_num envC10 3 [w "objA"] (w "a") 0 = some (some (.iv 5)) ∧
    dictGet (envC10 (w "objA")) (w "b:0") = some (w "7") :=
  c10_alias_lookup_drops_index envC10 (w "objA") [] (w "a") (w "b") 0 2
    (by decide) (by decide) (by decide) (by decide) (by decide)
    ⟨by decide, by decide, by decide⟩

/-- Claim C5 counterexample: when the (only) record of the hierarchy maps
the key to the empty string, the key is present but `resolve_raw` skips it
(the Python truthiness test `if var_val:`) and returns Absent, contradicting
both "returns the stored value including the empty string" and "Absent
exactly when no record contains the key". -/
theorem c5_counterexample :
    dictGet (envC5 (w "objA")) (w "k") = some (w "") ∧
    resolve_raw envC5 [w "objA"] (w "k") (-1) = none := by
  decide

/-- Claim C5 amended: `resolve_raw` returns, unprocessed, the raw value of
the first record of the hierarchy whose value at the effective key is
non-empty (truthy); records mapping the key to the empty string are
skipped, and the result is Absent exactly when every record either lacks
the key or maps it to the empty string. -/
theorem c5_first_nonempty_value (env : Env) (objs : List PyStr) (name : PyStr) (idx : Int) :
    (∀ v, resolve_raw env objs name idx = some v →
      v ≠ [] ∧ ∃ pre o post, objs = pre ++ o :: post ∧
        dictGet (env o) (effKey name idx) = some v ∧
        ∀ o' ∈ pre, ∀ u, dictGet (env o') (effKey name idx) = some u → u = []) ∧
    (resolve_raw env objs name idx = none ↔
      ∀ o ∈ objs, ∀ u, dictGet (env o) (effKey name idx) = some u → u = []) := by
  induction objs generalizing name with
  | nil =>
    constructor
    · intro v h; exact absurd h (by simp [resolve_raw])
    · simp [resolve_raw]
  | cons o rest ih =>
    have hkey := effKey_idem name idx
    cases hg : dictGet (env o) (effKey name idx) with
    | some v0 =>
      by_cases hv0 : v0 = []
      · -- the head record stores the empty string: skipped
        have hstep : resolve_raw env (o :: rest) name idx =
            resolve_raw env rest (effKey name idx) idx := by
          simp [resolve_raw, hg, hv0]
        have ih' := ih (effKey name idx)
        rw [hkey] at ih'
        constructor
        · intro v h
          rw [hstep] at h
          obtain ⟨hvne, pre, o', post, hsplit, hget, hpre⟩ := ih'.1 v h
          refine ⟨hvne, o :: pre, o', post, by simp [hsplit], hget, ?_⟩
          intro o2 ho2 u hu
          rcases List.mem_cons.mp ho2 with h2 | h2
          · subst h2; rw [hg] at hu; cases hu; exact hv0
          · exact hpre o2 h2 u hu
        · rw [hstep, ih'.2]
          constructor
          · intro hall o2 ho2 u hu
            rcases List.mem_cons.mp ho2 with h2 | h2
            · subst h2; rw [hg] at hu; cases hu; exact hv0
            · exact hall o2 h2 u hu
          · intro hall o2 ho2 u hu
            exact hall o2 (by simp [ho2]) u hu
      · -- the head record stores a truthy value: returned
        have hstep : resolve_raw env (o :: rest) name idx = some v0 := by
          simp [resolve_raw, hg, hv0]
        constructor
        · intro v h
          rw [hstep] at h
          cases h
          exact ⟨hv0, [], o, rest, rfl, hg, by simp⟩
        · rw [hstep]
          constructor
          · intro h; cases h
          · intro hall
            exact absurd (hall o (by simp) v0 hg) hv0
    | none =>
      have hstep : resolve_raw env (o :: rest) name idx =
          resolve_raw env rest (effKey name idx) idx := by
        simp [resolve_raw, hg]
      have ih' := ih (effKey name idx)
      rw [hkey] at ih'
      constructor
      · intro v h
        rw [hstep] at h
        obtain ⟨hvne, pre, o', post, hsplit, hget, hpre⟩ := ih'.1 v h
        refine ⟨hvne, o :: pre, o', post, by simp [hsplit], hget, ?_⟩
        intro o2 ho2 u hu
        rcases List.mem_cons.mp ho2 with h2 | h2
        · subst h2; rw [hg] at hu; cases hu
        · exact hpre o2 h2 u hu
      · rw [hstep, ih'.2]
        constructor
        · intro hall o2 ho2 u hu
          rcases List.mem_cons.mp ho2 with h2 | h2
          · subst h2; rw [hg] at hu; cases hu
          · exact hall o2 h2 u hu
        · intro hall o2 ho2 u hu
          exact hall o2 (by simp [ho2]) u hu

/-- Witness for `c5_first_nonempty_value`: in `envC5` the search skips
`objA` (which stores the empty string) and returns `objB`'s value `v`. -/
theorem c5_first_nonempty_value_witness :
    (w "v" : PyStr) ≠ [] ∧ ∃ pre o post, [w "objA", w "objB"] = pre ++ o :: post ∧
      dictGet (envC5 o) (effKey (w "k") (-1)) = some (w "v") ∧
      ∀ o' ∈ pre, ∀ u, dictGet (envC5 o') (effKey (w "k") (-1)) = some u → u = [] :=
  (c5_first_nonempty_value envC5 [w "objA", w "objB"] (w "k") (-1)).1 (w "v") (by decide)

/-- Claim C6: when chain search finds a raw value `v`, the literal
recognition of `resolve_bool` maps the exact texts `"true"` and `"1"` to
`True` and the exact text `"false"` to `False` — in particular `"1"` is
mapped to `True`, never to `False` (the source's second `or var_val == "1"`
disjunct is dead).  The final conjunct is the claim's example: `mflag` is
the non-literal `"maybe"`, no record defines `maybe`, and the result is
Absent. -/
theorem c6_bool_literal_recognition (env : Env) (objs : List PyStr) (name : PyStr)
    (idx : Int) (v : PyStr) (fuel : Nat)
    (hfuel : objs.length < fuel)
    (hfind : chainGet env (effKey name idx) objs = some v) :
    ((v = w "true" ∨ v = w "1") → resolve_bool env fuel objs name idx = some (some true)) ∧
    (v = w "false" → resolve_bool env fuel objs name idx = some (some false)) ∧
    resolve_bool envC6 5 [w "objA"] (w "mflag") (-1) = some none := by
  induction objs generalizing name fuel with
  | nil => exact absurd hfind (by simp [chainGet])
  | cons o rest ih =>
    obtain ⟨m, rfl⟩ : ∃ m, fuel = m + 1 := ⟨fuel - 1, by omega⟩
    cases hg : dictGet (env o) (effKey name idx) with
    | some v0 =>
      have hv : v0 = v := by
        have h0 := hfind
        simp only [chainGet] at h0
        rw [hg] at h0
        exact Option.some.inj h0
      rw [hv] at hg
      have hred : resolve_bool env (m + 1) (o :: rest) name idx =
          (if v = w "true" ∨ v = w "1" then some (some true)
           else if v = w "false" ∨ v = w "1" then some (some false)
           else resolve_bool env m (o :: rest) v (-1)) := by
        simp only [resolve_bool]
        rw [hg]
      refine ⟨?_, ?_, by decide⟩
      · intro hlit
        rw [hred, if_pos hlit]
      · intro hfa
        rw [hred, if_neg (show ¬(v = w "true" ∨ v = w "1") by rw [hfa]; decide),
          if_pos (Or.inl hfa)]
    | none =>
      have hfind' : chainGet env (effKey name idx) rest = some v := by
        have h0 := hfind
        simp only [chainGet] at h0
        rw [hg] at h0
        exact h0
      have hstep : resolve_bool env (m + 1) (o :: rest) name idx =
          resolve_bool env m rest (effKey name idx) idx := by
        simp only [resolve_bool]
        rw [hg]
      have h3 := ih (effKey name idx) m (by simp at hfuel; omega)
        (by rw [effKey_idem]; exact hfind')
      exact ⟨fun hlit => by rw [hstep]; exact h3.1 hlit,
             fun hf => by rw [hstep]; exact h3.2.1 hf, h3.2.2⟩

/-- Witness for `c6_bool_literal_recognition`: `flag = "true"` in `envC6`
resolves to `True`, and the `"maybe"` example resolves to Absent. -/
theorem c6_bool_literal_recognition_witness :
    resolve_bool envC6 2 [w "objA"] (w "flag") (-1) = some (some true) ∧
    resolve_bool envC6 5 [w "objA"] (w "mflag") (-1) = some none := by
  have h := c6_bool_literal_recognition envC6 [w "objA"] (w "flag") (-1) (w "true") 2
    (by decide) (by decide)
  exact ⟨h.1 (Or.inl rfl), h.2.2⟩

/-- A line starting with a space still starts with a space after the
`var `-removal and `;`-removal of `parse_gml`. -/
theorem stripLine_head_space (t : PyStr) : (stripLine (' ' :: t)).head? = some ' ' := by
  have h1 : leadsWith (w "var ") (' ' :: t) = false := rfl
  unfold stripLine pyDropPre
  rw [h1]
  simp only [if_neg Bool.false_ne_true]
  unfold pyDropSuf
  cases hdS : trailsWith (w ";") (' ' :: t) with
  | false => simp
  | true =>
    rcases t with _ | ⟨c, t'⟩
    · exact absurd hdS (by decide)
    · simp only [if_pos rfl, List.length_cons]
      have : c :: t' ≠ [] := by simp
      simp [List.take]

/-- `parse_gml` records nothing from lines that begin with a space. -/
theorem parseLines_space_skipped :
    ∀ (lines : List PyStr) (r : GRec), (∀ l ∈ lines, l.head? = some ' ') →
      parseLines r lines = r := by
  intro lines
  induction lines with
  | nil => intro r _; rfl
  | cons l rest ih =>
    intro r h
    have hl : l.head? = some ' ' := h l (by simp)
    obtain ⟨t, rfl⟩ : ∃ t, l = ' ' :: t := by
      cases l with
      | nil => simp at hl
      | cons c t =>
        simp only [List.head?_cons, Option.some.injEq] at hl
        exact ⟨t, by rw [hl]⟩
    have hret : (' ' :: t) ≠ w "return" := by
      intro he
      have h2 := congrArg List.head? he
      simp [w] at h2
    rw [parseLines, if_neg hret]
    have hstep : lineStep r (' ' :: t) = r := by
      unfold lineStep
      rw [if_pos (stripLine_head_space t)]
    rw [hstep]
    exact ih r (fun l' hl' => h l' (by simp [hl']))

/-- Claim C7 counterexample: a text consisting only of one tab-indented
line does not tokenize to an empty values map — the tokenizer only skips
lines beginning with a space character, so the tab-indented assignment is
recorded (under the key `"\thp"`). -/
theorem c7_counterexample :
    (parse_gml (w "\thp = 5")).tbl = [(w "\thp", w "5")] ∧
    (parse_gml (w "\thp = 5")).tbl ≠ [] := by
  decide

/-- Claim C7 amended: for every script line beginning with a space
character the tokenizer records nothing, so a text consisting only of
space-indented lines yields an empty values map and an empty calls list
(tab-indented lines, by contrast, are processed). -/
theorem c7_space_indented_skipped (s : PyStr)
    (h : ∀ l ∈ pySplitlines s, l.head? = some ' ') :
    parse_gml s = ⟨[], []⟩ := by
  unfold parse_gml
  exact parseLines_space_skipped (pySplitlines s) ⟨[], []⟩ h

/-- Witness for `c7_space_indented_skipped` on a two-line space-indented
script. -/
theorem c7_space_indented_skipped_witness :
    parse_gml (w "  a = 1\n  f(2)") = ⟨[], []⟩ :=
  c7_space_indented_skipped (w "  a = 1\n  f(2)") (by decide)

/-- Appending the parent of the accumulator's last element preserves the
consecutive-parent property of the accumulator. -/
theorem consec_concat (pmap : PyStr → Option (Option PyStr)) (acc : List PyStr)
    (cur p : PyStr) (hlast : acc.getLast? = some cur)
    (hcons : ∀ i a b, acc.get? i = some a → acc.get? (i + 1) = some b →
      pmap a = some (some b))
    (hp : pmap cur = some (some p)) :
    ∀ i a b, (acc ++ [p]).get? i = some a → (acc ++ [p]).get? (i + 1) = some b →
      pmap a = some (some b) := by
  intro i a b ha hb
  have hi1 : i + 1 < acc.length + 1 := by
    by_contra hge
    push_neg at hge
    have : (acc ++ [p]).get? (i + 1) = none := by
      rw [List.get?_eq_none]
      simp
      omega
    rw [this] at hb
    cases hb
  by_cases hi : i + 1 < acc.length
  · have ha' : acc.get? i = some a := by
      rw [List.get?_append (by omega)] at ha; exact ha
    have hb' : acc.get? (i + 1) = some b := by
      rw [List.get?_append hi] at hb; exact hb
    exact hcons i a b ha' hb'
  · have hieq : i + 1 = acc.length := by omega
    have hb' : b = p := by
      rw [List.get?_append_right (by omega)] at hb
      rw [hieq] at hb
      simp at hb
      exact hb.symm
    have ha' : acc.get? i = some a := by
      rw [List.get?_append (by omega)] at ha; exact ha
    have hacur : a = cur := by
      have hg : acc.getLast? = acc.get? (acc.length - 1) := List.getLast?_eq_get? acc
    -- `acc.get? i` with `i = acc.length - 1` is the last element
      rw [hg] at hlast
      have : acc.get? i = some cur := by
        have : acc.length - 1 = i := by omega
        rw [this] at hlast
        exact hlast
      rw [this] at ha'
      exact (Option.some.inj ha').symm
    rw [hacur, hb']
    exact hp

/-- Loop invariant of `hierGo`: a normal (`ok`) exit preserves the head,
keeps the consecutive-parent property, and stops at an element whose
parent value is null, empty or one of the two sentinels. -/
theorem hierGo_ok_props (pmap : PyStr → Option (Option PyStr)) :
    ∀ (fuel : Nat) (acc : List PyStr) (cur : PyStr) (l : List PyStr),
      acc ≠ [] → acc.getLast? = some cur →
      (∀ i a b, acc.get? i = some a → acc.get? (i + 1) = some b →
        pmap a = some (some b)) →
      hierGo pmap fuel acc cur = some (.ok l) →
      l.head? = acc.head? ∧ l ≠ [] ∧
      (∀ i a b, l.get? i = some a → l.get? (i + 1) = some b →
        pmap a = some (some b)) ∧
      (∃ z, l.getLast? = some z ∧
        (pmap z = some none ∨ ∃ p, pmap z = some (some p) ∧
          (p = [] ∨ p = w "__NONE__" ∨ p = w "oSaveObject"))) := by
  intro fuel
  induction fuel with
  | zero =>
    intro acc cur l _ _ _ h
    exact absurd h (by simp [hierGo])
  | succ m ih =>
    intro acc cur l hne hlast hcons hrun
    rw [hierGo] at hrun
    cases hp : pmap cur with
    | none =>
      rw [hp] at hrun
      exact absurd hrun (by simp)
    | some po =>
      cases po with
      | none =>
        rw [hp] at hrun
        simp only [Option.some.injEq, Except.ok.injEq] at hrun
        subst hrun
        exact ⟨rfl, hne, hcons, cur, hlast, Or.inl hp⟩
      | some p =>
        rw [hp] at hrun
        replace hrun :
            (if p ≠ [] ∧ p ≠ w "__NONE__" ∧ p ≠ w "oSaveObject" then
              hierGo pmap m (acc ++ [p]) p
            else some (.ok acc)) = some (.ok l) := hrun
        by_cases hc : p ≠ [] ∧ p ≠ w "__NONE__" ∧ p ≠ w "oSaveObject"
        · rw [if_pos hc] at hrun
          have hprops := ih (acc ++ [p]) p l (by simp)
            (by rw [List.getLast?_concat])
            (consec_concat pmap acc cur p hlast hcons hp) hrun
          refine ⟨?_, hprops.2.1, hprops.2.2.1, hprops.2.2.2⟩
          rw [hprops.1]
          rcases acc with _ | ⟨x, xs⟩
          · exact absurd rfl hne
          · simp
        · rw [if_neg hc] at hrun
          simp only [Option.some.injEq, Except.ok.injEq] at hrun
          subst hrun
          have hstop : p = [] ∨ p = w "__NONE__" ∨ p = w "oSaveObject" := by
            by_contra hno
            push_neg at hno
            exact hc ⟨hno.1, hno.2.1, hno.2.2⟩
          exact ⟨rfl, hne, hcons, cur, hlast, Or.inr ⟨p, hp, hstop⟩⟩

/-- Claim C9 counterexample: `objA` is present in the parent table and its
parent value `objB` is truthy and not a sentinel, but `objB` is not a key
of the table, so the next loop iteration raises a `KeyError` instead of
returning a sequence — the claim fails as a universal statement about ids
present in the table. -/
theorem c9_counterexample :
    pmC9bad (w "objA") = some (some (w "objB")) ∧
    hierarchy_for_object pmC9bad 10 (w "objA") = some (.error .keyError) := by
  decide

/-- Claim C9 amended: whenever `hierarchy_for_object` returns normally
(every encountered non-sentinel parent is itself a key of the table and
the chain reaches a terminator), the result starts with the given id
(hence has length at least 1), each subsequent element is the parent of
its predecessor, and the walk stopped at an element whose parent value is
null, empty, the `"__NONE__"` sentinel or the `"oSaveObject"` root
sentinel; a parent id missing from the table raises `KeyError` instead. -/
theorem c9_hierarchy_structure (pmap : PyStr → Option (Option PyStr)) (fuel : Nat)
    (obj : PyStr) (l : List PyStr)
    (h : hierarchy_for_object pmap fuel obj = some (.ok l)) :
    l.head? = some obj ∧ 1 ≤ l.length ∧
    (∀ i a b, l.get? i = some a → l.get? (i + 1) = some b →
      pmap a = some (some b)) ∧
    (∃ z, l.getLast? = some z ∧
      (pmap z = some none ∨ ∃ p, pmap z = some (some p) ∧
        (p = [] ∨ p = w "__NONE__" ∨ p = w "oSaveObject"))) := by
  have hsingle : ∀ i a b, ([obj] : List PyStr).get? i = some a →
      ([obj] : List PyStr).get? (i + 1) = some b → pmap a = some (some b) := by
    intro i a b _ hb
    have : ([obj] : List PyStr).get? (i + 1) = none := by
      rw [List.get?_eq_none]
      simp
    rw [this] at hb
    cases hb
  have hprops := hierGo_ok_props pmap fuel [obj] obj l (by simp) (by simp) hsingle h
  refine ⟨by rw [hprops.1]; rfl, ?_, hprops.2.2.1, hprops.2.2.2⟩
  have := hprops.2.1
  rcases l with _ | ⟨x, xs⟩
  · exact absurd rfl this
  · simp

/-- Witness for `c9_hierarchy_structure` on the two-element chain of
`pmC9ok`. -/
theorem c9_hierarchy_structure_witness :
    ([w "objA", w "objB"] : List PyStr).head? = some (w "objA") ∧
    1 ≤ ([w "objA", w "objB"] : List PyStr).length ∧
    (∀ i a b, ([w "objA", w "objB"] : List PyStr).get? i = some a →
      ([w "objA", w "objB"] : List PyStr).get? (i + 1) = some b →
      pmC9ok a = some (some b)) ∧
    (∃ z, ([w "objA", w "objB"] : List PyStr).getLast? = some z ∧
      (pmC9ok z = some none ∨ ∃ p, pmC9ok z = some (some p) ∧
        (p = [] ∨ p = w "__NONE__" ∨ p = w "oSaveObject"))) :=
  c9_hierarchy_structure pmC9ok 5 (w "objA") [w "objA", w "objB"] (by decide)

/-! ## Round-trip machinery (claim C8) -/

theorem leadsWith_append (p : PyStr) :
    ∀ l, leadsWith p l = true → l = p ++ l.drop p.length := by
  induction p with
  | nil => intro l _; simp
  | cons a ps ih =>
    intro l h
    cases l with
    | nil => exact absurd h (by simp [leadsWith])
    | cons b ls =>
      simp only [leadsWith, Bool.and_eq_true, decide_eq_true_eq] at h
      obtain ⟨rfl, h2⟩ := h
      simpa using ih ls h2

theorem leadsWith_self_append (p r : PyStr) : leadsWith p (p ++ r) = true := by
  induction p with
  | nil => simp [leadsWith]
  | cons a ps ih => simp [leadsWith, ih]

theorem splitOnce_eq (sep : PyStr) :
    ∀ l a b, splitOnce sep l = some (a, b) → l = a ++ sep ++ b := by
  intro l
  induction l with
  | nil => intro a b h; exact absurd h (by simp [splitOnce])
  | cons c rest ih =>
    intro a b h
    unfold splitOnce at h
    by_cases hc : sep ≠ [] ∧ leadsWith sep (c :: rest) = true
    · rw [if_pos hc] at h
      simp only [Option.some.injEq, Prod.mk.injEq] at h
      obtain ⟨rfl, rfl⟩ := h
      simpa using leadsWith_append sep (c :: rest) hc.2
    · rw [if_neg hc] at h
      cases hs : splitOnce sep rest with
      | none => rw [hs] at h; cases h
      | some ab =>
        rw [hs] at h
        simp only [Option.map_some', Option.some.injEq, Prod.mk.injEq] at h
        obtain ⟨rfl, rfl⟩ := h
        have := ih ab.1 ab.2 hs
        simp [this]

theorem splitOnce_junction (c0 : Char) (sep' : PyStr) :
    ∀ k v, c0 ∉ k → splitOnce (c0 :: sep') (k ++ (c0 :: sep') ++ v) = some (k, v) := by
  intro k
  induction k with
  | nil =>
    intro v _
    have h1 : ((([] : PyStr) ++ (c0 :: sep')) ++ v) = c0 :: (sep' ++ v) := by simp
    rw [h1, splitOnce]
    rw [if_pos ⟨by simp, by
      have h2 := leadsWith_self_append (c0 :: sep') v
      simpa using h2⟩]
    simp only [Option.some.injEq, Prod.mk.injEq, true_and]
    show (c0 :: (sep' ++ v)).drop (c0 :: sep').length = v
    simp only [List.length_cons, List.drop_succ_cons]
    exact List.drop_left sep' v
  | cons a k' ih =>
    intro v hmem
    have ha : a ≠ c0 := fun he => hmem (by simp [← he])
    have h1 : ((a :: k') ++ (c0 :: sep') ++ v) = a :: (k' ++ (c0 :: sep') ++ v) := by simp
    rw [h1, splitOnce]
    rw [if_neg ?hn]
    case hn =>
      rintro ⟨-, hlw⟩
      simp only [leadsWith, Bool.and_eq_true, decide_eq_true_eq] at hlw
      exact ha hlw.1.symm
    rw [ih v (fun hc => hmem (by simp [hc]))]
    rfl

theorem wordChar_ne_space {c : Char} (h : isWordChar c = true) : c ≠ ' ' := by
  intro he
  subst he
  exact absurd h (by decide)

theorem digit_wordChar {c : Char} (h : c.isDigit = true) : isWordChar c = true := by
  simp [isWordChar, Char.isAlphanum, h]

theorem digit_not_lineTerm {c : Char} (h : c.isDigit = true) : isLineTerm c = false := by
  by_contra hlt
  simp only [Bool.not_eq_false] at hlt
  simp only [isLineTerm, Bool.or_eq_true, decide_eq_true_eq] at hlt
  rcases hlt with (((((((((h1 | h1) | h1) | h1) | h1) | h1) | h1) | h1) | h1) | h1) <;>
    (subst h1; exact absurd h (by decide))

theorem natDigsGo_digits : ∀ fuel n, ∀ c ∈ natDigsGo fuel n, c.isDigit = true := by
  intro fuel
  induction fuel with
  | zero => intro n c hc; simp [natDigsGo] at hc
  | succ m ih =>
    intro n c hc
    unfold natDigsGo at hc
    by_cases hn : n < 10
    · rw [if_pos hn] at hc
      simp only [List.mem_singleton] at hc
      subst hc
      exact (by decide : ∀ k, k < 10 → (Char.ofNat (48 + k)).isDigit = true) n hn
    · rw [if_neg hn] at hc
      rcases List.mem_append.mp hc with h1 | h1
      · exact ih (n / 10) c h1
      · simp only [List.mem_singleton] at h1
        subst h1
        exact (by decide : ∀ k, k < 10 → (Char.ofNat (48 + k)).isDigit = true)
          (n % 10) (Nat.mod_lt n (by omega))

theorem natDigs_digits (n : Nat) : ∀ c ∈ natDigs n, c.isDigit = true :=
  natDigsGo_digits (n + 1) n

theorem natDigs_ne_nil (n : Nat) : natDigs n ≠ [] := by
  unfold natDigs natDigsGo
  by_cases hn : n < 10
  · simp [hn]
  · simp [hn]

theorem callMatch_after_word (nm : PyStr) (c : Char) (r : PyStr)
    (hne : nm ≠ []) (hw : ∀ x ∈ nm, isWordChar x = true)
    (hc : isWordChar c = false) (hcp : c ≠ '(') :
    callMatch (nm ++ c :: r) = none := by
  simp only [callMatch]
  rw [takeWhile_append_of_stop nm c r hw hc, if_neg hne, List.drop_left]
  exact if_neg (fun hand => hcp hand.1)

theorem idxMatch_after_word (nm : PyStr) (c : Char) (r : PyStr)
    (hne : nm ≠ []) (hw : ∀ x ∈ nm, isWordChar x = true)
    (hc : isWordChar c = false) (hcb : c ≠ '[') :
    idxMatch (nm ++ c :: r) = none := by
  simp only [idxMatch]
  rw [takeWhile_append_of_stop nm c r hw hc, if_neg hne, List.drop_left]
  exact if_neg (fun hand => hcb hand.1)

theorem idxMatch_props (k nm : PyStr) (n : Nat) (h : idxMatch k = some (nm, n)) :
    nm = k.takeWhile isWordChar ∧ nm ≠ [] ∧ ∀ c ∈ nm, isWordChar c = true := by
  unfold idxMatch at h
  by_cases hw : k.takeWhile isWordChar = []
  · rw [if_pos hw] at h; cases h
  · rw [if_neg hw] at h
    cases hd : k.drop (k.takeWhile isWordChar).length with
    | nil => rw [hd] at h; cases h
    | cons c rest =>
      rw [hd] at h
      replace h : (if c = '[' ∧ rest.getLast? = some ']' ∧ rest.dropLast ≠ [] ∧
          rest.dropLast.all Char.isDigit then
          some (k.takeWhile isWordChar,
            (rest.dropLast.foldl (fun a x => 10 * a + (x.toNat - 48)) 0))
        else none) = some (nm, n) := h
      by_cases hcond : c = '[' ∧ rest.getLast? = some ']' ∧ rest.dropLast ≠ [] ∧
          rest.dropLast.all Char.isDigit
      · rw [if_pos hcond] at h
        simp only [Option.some.injEq, Prod.mk.injEq] at h
        obtain ⟨h1, -⟩ := h
        subst h1
        exact ⟨rfl, hw, fun c' hc' => mem_of_takeWhile _ c' hc'⟩
      · rw [if_neg hcond] at h
        cases h

theorem pyDropPre_subset (p l : PyStr) : ∀ c ∈ pyDropPre p l, c ∈ l := by
  unfold pyDropPre
  split
  · exact fun c hc => List.drop_subset _ _ hc
  · exact fun c hc => hc

theorem pyDropSuf_subset (p l : PyStr) : ∀ c ∈ pyDropSuf p l, c ∈ l := by
  unfold pyDropSuf
  split
  · exact fun c hc => List.take_subset _ _ hc
  · exact fun c hc => hc

theorem stripLine_noterm (l : PyStr) (h : ∀ c ∈ l, isLineTerm c = false) :
    ∀ c ∈ stripLine l, isLineTerm c = false :=
  fun c hc => h c (pyDropPre_subset _ _ c (pyDropSuf_subset _ _ c hc))

theorem splitlinesGo_noterm :
    ∀ (n : Nat) (s cur : PyStr), s.length ≤ n →
      (∀ c ∈ cur, isLineTerm c = false) →
      ∀ l ∈ splitlinesGo s cur, ∀ c ∈ l, isLineTerm c = false := by
  intro n
  induction n with
  | zero =>
    intro s cur hlen hcur l hl c hc
    have hs : s = [] := List.length_eq_zero.mp (by omega)
    subst hs
    simp only [splitlinesGo] at hl
    split at hl
    · cases hl
    · simp only [List.mem_singleton] at hl
      subst hl
      exact hcur c hc
  | succ m ih =>
    intro s cur hlen hcur l hl c hc
    rcases s with _ | ⟨a, rest1⟩
    · simp only [splitlinesGo] at hl
      split at hl
      · cases hl
      · simp only [List.mem_singleton] at hl
        subst hl
        exact hcur c hc
    rcases rest1 with _ | ⟨b, rest⟩
    · simp only [splitlinesGo] at hl
      split at hl
      · simp only [List.mem_singleton] at hl
        subst hl
        exact hcur c hc
      · rename_i hterm
        simp only [List.mem_singleton] at hl
        subst hl
        rcases List.mem_append.mp hc with h1 | h1
        · exact hcur c h1
        · simp only [List.mem_singleton] at h1
          subst h1
          simpa using hterm
    · simp only [splitlinesGo] at hl
      split at hl
      · rcases List.mem_cons.mp hl with rfl | hl2
        · exact hcur c hc
        · exact ih rest [] (by simp at hlen ⊢; omega) (by simp) l hl2 c hc
      · split at hl
        · rcases List.mem_cons.mp hl with rfl | hl2
          · exact hcur c hc
          · exact ih (b :: rest) [] (by simp at hlen ⊢; omega) (by simp) l hl2 c hc
        · rename_i hnotrn hterm
          refine ih (b :: rest) (cur ++ [a]) (by simp at hlen ⊢; omega) ?_ l hl c hc
          intro c' hc'
          rcases List.mem_append.mp hc' with h1 | h1
          · exact hcur c' h1
          · simp only [List.mem_singleton] at h1
            subst h1
            simpa using hterm

theorem pySplitlines_noterm (s : PyStr) :
    ∀ l ∈ pySplitlines s, ∀ c ∈ l, isLineTerm c = false :=
  splitlinesGo_noterm s.length s [] le_rfl (by simp)

theorem splitlinesGo_line (l : PyStr) :
    ∀ (rest cur : PyStr), (∀ c ∈ l, isLineTerm c = false) →
      splitlinesGo (l ++ '\n' :: rest) cur = (cur ++ l) :: splitlinesGo rest [] := by
  induction l with
  | nil =>
    intro rest cur _
    cases rest with
    | nil => simp [splitlinesGo, show isLineTerm '\n' = true from by decide]
    | cons d rest2 =>
      show splitlinesGo ('\n' :: d :: rest2) cur = (cur ++ []) :: splitlinesGo (d :: rest2) []
      simp only [splitlinesGo]
      rw [if_neg (by simp), if_pos (by decide)]
      simp
  | cons a l' ih =>
    intro rest cur hnt
    have ha : isLineTerm a = false := hnt a (by simp)
    have har : a ≠ '\r' := by
      intro he
      subst he
      exact absurd ha (by decide)
    obtain ⟨b, tail, hbt⟩ : ∃ b tail, l' ++ '\n' :: rest = b :: tail := by
      cases hx : l' ++ '\n' :: rest with
      | nil => exact absurd hx (by simp)
      | cons b t => exact ⟨b, t, rfl⟩
    show splitlinesGo (a :: (l' ++ '\n' :: rest)) cur = (cur ++ a :: l') :: splitlinesGo rest []
    rw [hbt]
    simp only [splitlinesGo]
    rw [if_neg (by simp [har]), if_neg (by simp [ha])]
    rw [← hbt, ih rest (cur ++ [a]) (fun c hc => hnt c (by simp [hc]))]
    simp

theorem splitlinesGo_noline (l : PyStr) :
    ∀ cur, (∀ c ∈ l, isLineTerm c = false) →
      splitlinesGo l cur = if cur ++ l = [] then [] else [cur ++ l] := by
  induction l with
  | nil => intro cur _; simp [splitlinesGo]
  | cons a l' ih =>
    intro cur hnt
    have ha : isLineTerm a = false := hnt a (by simp)
    have har : a ≠ '\r' := by
      intro he
      subst he
      exact absurd ha (by decide)
    cases l' with
    | nil =>
      simp only [splitlinesGo]
      rw [if_neg (by simp [ha])]
      have h2 : cur ++ [a] ≠ [] := by simp
      simp [h2]
    | cons b l'' =>
      simp only [splitlinesGo]
      rw [if_neg (by simp [har]), if_neg (by simp [ha])]
      rw [ih (cur ++ [a]) (fun c hc => hnt c (by simp [hc]))]
      have h2 : (cur ++ [a]) ++ b :: l'' ≠ [] := by simp
      have h3 : cur ++ a :: b :: l'' ≠ [] := by simp
      rw [if_neg h2, if_neg h3]
      simp

theorem pySplitlines_joinNL :
    ∀ (lines : List PyStr),
      (∀ l ∈ lines, l ≠ [] ∧ ∀ c ∈ l, isLineTerm c = false) →
      pySplitlines (joinNL lines) = lines := by
  intro lines
  induction lines with
  | nil => intro _; rfl
  | cons l rest ih =>
    intro h
    obtain ⟨hl, hlnt⟩ := h l (by simp)
    cases rest with
    | nil =>
      have hj : joinNL [l] = l := by simp [joinNL]
      unfold pySplitlines
      rw [hj, splitlinesGo_noline l [] hlnt]
      simp [hl]
    | cons r rs =>
      have hj : joinNL (l :: r :: rs) = l ++ '\n' :: joinNL (r :: rs) := by
        simp [joinNL]
      unfold pySplitlines
      rw [hj, splitlinesGo_line l (joinNL (r :: rs)) [] hlnt]
      simp only [List.nil_append]
      congr 1
      exact ih (fun l' hl' => h l' (by simp [hl']))

theorem updIns_entry_prop (P : PyStr → PyStr → Prop) (k v : PyStr) :
    ∀ tbl, (∀ kv ∈ tbl, P kv.1 kv.2) → P k v →
      ∀ kv ∈ updIns k v tbl, P kv.1 kv.2 := by
  intro tbl
  induction tbl with
  | nil =>
    intro _ hkv kv hmem
    simp only [updIns, List.mem_singleton] at hmem
    subst hmem
    exact hkv
  | cons p t ih =>
    obtain ⟨k0, v0⟩ := p
    intro hall hkv kv hmem
    unfold updIns at hmem
    by_cases he : k0 = k
    · rw [if_pos he] at hmem
      rcases List.mem_cons.mp hmem with rfl | hm
      · subst he; exact hkv
      · exact hall kv (by simp [hm])
    · rw [if_neg he] at hmem
      rcases List.mem_cons.mp hmem with rfl | hm
      · exact hall (k0, v0) (by simp)
      · exact ih (fun kv' h' => hall kv' (by simp [h'])) hkv kv hm

theorem updIns_keys (k v : PyStr) :
    ∀ tbl, (updIns k v tbl).map Prod.fst =
      if k ∈ tbl.map Prod.fst then tbl.map Prod.fst else tbl.map Prod.fst ++ [k] := by
  intro tbl
  induction tbl with
  | nil => simp [updIns]
  | cons p t ih =>
    obtain ⟨k0, v0⟩ := p
    unfold updIns
    by_cases he : k0 = k
    · rw [if_pos he]
      subst he
      simp
    · rw [if_neg he]
      simp only [List.map_cons, ih]
      by_cases hk : k ∈ t.map Prod.fst
      · simp [hk, Ne.symm he]
      · simp [hk, Ne.symm he]

theorem updIns_nodup (k v : PyStr) (tbl : List (PyStr × PyStr))
    (h : (tbl.map Prod.fst).Nodup) : ((updIns k v tbl).map Prod.fst).Nodup := by
  rw [updIns_keys]
  split
  · exact h
  · rename_i hk
    refine List.Nodup.append h (List.nodup_singleton k) ?_
    intro a ha hb
    simp only [List.mem_singleton] at hb
    subst hb
    exact hk ha

theorem updIns_not_mem (k v : PyStr) :
    ∀ tbl, k ∉ tbl.map Prod.fst → updIns k v tbl = tbl ++ [(k, v)] := by
  intro tbl
  induction tbl with
  | nil => intro _; rfl
  | cons p t ih =>
    obtain ⟨k0, v0⟩ := p
    intro hk
    simp only [List.map_cons, List.mem_cons, not_or] at hk
    unfold updIns
    rw [if_neg (Ne.symm hk.1), ih hk.2]
    rfl

theorem foldl_updIns_fresh :
    ∀ (entries acc : List (PyStr × PyStr)),
      ((acc ++ entries).map Prod.fst).Nodup →
      entries.foldl (fun a kv => updIns kv.1 kv.2 a) acc = acc ++ entries := by
  intro entries
  induction entries with
  | nil => intro acc _; simp
  | cons p t ih =>
    obtain ⟨k, v⟩ := p
    intro acc hnd
    have hk : k ∉ acc.map Prod.fst := by
      intro hmem
      rw [List.map_append] at hnd
      have hdisj := (List.nodup_append.mp hnd).2.2
      exact hdisj hmem (by simp)
    simp only [List.foldl_cons]
    rw [updIns_not_mem k v acc hk]
    rw [ih (acc ++ [(k, v)]) (by rw [List.append_assoc]; simpa using hnd)]
    simp

theorem head_append_of_ne_nil {k : PyStr} (rest : PyStr) (hk : k ≠ []) :
    (k ++ rest).head? = k.head? := by
  cases k with
  | nil => exact absurd rfl hk
  | cons a t => rfl

theorem lineStep_good (r : GRec) (l0 : PyStr) (hnt : ∀ c ∈ l0, isLineTerm c = false)
    (hgood : GoodTbl r.tbl) : GoodTbl (lineStep r l0).tbl := by
  unfold lineStep
  have hLnt : ∀ c ∈ stripLine l0, isLineTerm c = false := stripLine_noterm l0 hnt
  by_cases hsp : (stripLine l0).head? = some ' '
  · rw [if_pos hsp]; exact hgood
  · rw [if_neg hsp]
    cases hcall : callMatch (stripLine l0) with
    | some p =>
      obtain ⟨fn, argstr⟩ := p
      exact hgood
    | none =>
      cases hsplit : splitOnce (w " = ") (stripLine l0) with
      | none => exact hgood
      | some kv =>
        obtain ⟨k, v⟩ := kv
        show GoodTbl (match idxMatch k with
          | some (nm, n) => ({ r with tbl := updIns (nm ++ ':' :: natDigs n) v r.tbl } : GRec)
          | none => { r with tbl := updIns k v r.tbl }).tbl
        have hLkv : stripLine l0 = k ++ w " = " ++ v := splitOnce_eq (w " = ") _ k v hsplit
        have hkne : k ≠ [] := by
          intro hke
          apply hsp
          rw [hLkv, hke]
          rfl
        have hkh : k.head? ≠ some ' ' := by
          intro hh
          apply hsp
          rw [hLkv, head_append_of_ne_nil _ (by simp [hkne]), head_append_of_ne_nil _ hkne]
          exact hh
        have hknt : ∀ c ∈ k, isLineTerm c = false := fun c hc =>
          hLnt c (by rw [hLkv]; simp [hc])
        have hvnt : ∀ c ∈ v, isLineTerm c = false := fun c hc =>
          hLnt c (by rw [hLkv]; simp [hc])
        cases hidx : idxMatch k with
        | none =>
          show GoodTbl (updIns k v r.tbl)
          refine ⟨?_, updIns_nodup k v r.tbl hgood.2⟩
          apply updIns_entry_prop GoodKV k v r.tbl hgood.1
          exact ⟨hkne, hkh, by rw [← hLkv]; exact hsplit, by rw [← hLkv]; exact hcall,
            hidx, hknt, hvnt⟩
        | some nmn =>
          obtain ⟨nm, n⟩ := nmn
          show GoodTbl (updIns (nm ++ ':' :: natDigs n) v r.tbl)
          obtain ⟨hnm_eq, hnm_ne, hnm_w⟩ := idxMatch_props k nm n hidx
          have hsp' : ' ' ∉ nm ++ ':' :: natDigs n := by
            intro hmem
            rcases List.mem_append.mp hmem with h1 | h1
            · exact wordChar_ne_space (hnm_w ' ' h1) rfl
            · rcases List.mem_cons.mp h1 with h2 | h2
              · exact absurd h2 (by decide)
              · exact absurd (natDigs_digits n ' ' h2) (by decide)
          refine ⟨?_, updIns_nodup _ v r.tbl hgood.2⟩
          apply updIns_entry_prop GoodKV _ v r.tbl hgood.1
          obtain ⟨a, t, hat⟩ := List.exists_cons_of_ne_nil hnm_ne
          refine ⟨by simp, ?_, ?_, ?_, ?_, ?_, hvnt⟩
          · -- head is a word character, hence not a space
            rw [head_append_of_ne_nil _ hnm_ne, hat]
            intro hh
            simp only [List.head?_cons, Option.some.injEq] at hh
            exact wordChar_ne_space (hnm_w a (by rw [hat]; simp)) hh
          · show splitOnce (w " = ") ((nm ++ ':' :: natDigs n) ++ (' ' :: w "= ") ++ v) =
              some (nm ++ ':' :: natDigs n, v)
            exact splitOnce_junction ' ' (w "= ") _ v hsp'
          · have hassoc : (nm ++ ':' :: natDigs n) ++ w " = " ++ v =
                nm ++ ':' :: (natDigs n ++ (w " = " ++ v)) := by simp
            rw [hassoc]
            exact callMatch_after_word nm ':' _ hnm_ne hnm_w (by decide) (by decide)
          · exact idxMatch_after_word nm ':' _ hnm_ne hnm_w (by decide) (by decide)
          · intro c hc
            rcases List.mem_append.mp hc with h1 | h1
            · exact hknt c (mem_of_mem_takeWhile k c (hnm_eq ▸ h1))
            · rcases List.mem_cons.mp h1 with h2 | h2
              · subst h2; decide
              · exact digit_not_lineTerm (natDigs_digits n c h2)

theorem parseLines_good :
    ∀ (lines : List PyStr) (r : GRec), GoodTbl r.tbl →
      (∀ l ∈ lines, ∀ c ∈ l, isLineTerm c = false) →
      GoodTbl (parseLines r lines).tbl := by
  intro lines
  induction lines with
  | nil => intro r h _; exact h
  | cons l rest ih =>
    intro r h hnt
    rw [parseLines]
    split
    · exact h
    · exact ih (lineStep r l) (lineStep_good r l (hnt l (by simp)) h)
        (fun l' hl' c hc => hnt l' (by simp [hl']) c hc)

theorem parse_gml_good (s : PyStr) : GoodTbl (parse_gml s).tbl := by
  unfold parse_gml
  exact parseLines_good (pySplitlines s) ⟨[], []⟩ ⟨by simp, by simp⟩
    (fun l hl c hc => pySplitlines_noterm s l hl c hc)

theorem serialized_ne_return (k v : PyStr) : k ++ w " = " ++ v ≠ w "return" := by
  intro he
  have h1 : '=' ∈ k ++ w " = " ++ v := by
    apply List.mem_append.mpr
    left
    apply List.mem_append.mpr
    right
    decide
  rw [he] at h1
  exact absurd h1 (by decide)

theorem lineStep_serialized (r : GRec) (k v : PyStr) (hkv : GoodKV k v)
    (hvar : leadsWith (w "var ") (k ++ w " = " ++ v) = false)
    (hsemi : trailsWith (w ";") (k ++ w " = " ++ v) = false) :
    lineStep r (k ++ w " = " ++ v) = { r with tbl := updIns k v r.tbl } := by
  obtain ⟨hkne, hkh, hsplit, hcall, hidx, -, -⟩ := hkv
  have hstrip : stripLine (k ++ w " = " ++ v) = k ++ w " = " ++ v := by
    unfold stripLine pyDropPre
    rw [hvar]
    simp only [Bool.false_eq_true, if_false]
    unfold pyDropSuf
    rw [hsemi]
    simp
  unfold lineStep
  rw [hstrip]
  have hh : (k ++ w " = " ++ v).head? ≠ some ' ' := by
    rw [head_append_of_ne_nil _ (by simp [hkne]), head_append_of_ne_nil _ hkne]
    exact hkh
  rw [if_neg hh, hcall, hsplit]
  show (match idxMatch k with
    | some (nm, n) => ({ r with tbl := updIns (nm ++ ':' :: natDigs n) v r.tbl } : GRec)
    | none => { r with tbl := updIns k v r.tbl }) = { r with tbl := updIns k v r.tbl }
  rw [hidx]

theorem parseLines_serialized :
    ∀ (entries : List (PyStr × PyStr)) (r : GRec),
      (∀ kv ∈ entries, GoodKV kv.1 kv.2 ∧
        leadsWith (w "var ") (kv.1 ++ w " = " ++ kv.2) = false ∧
        trailsWith (w ";") (kv.1 ++ w " = " ++ kv.2) = false) →
      parseLines r (entries.map fun kv => kv.1 ++ w " = " ++ kv.2) =
        { r with tbl := entries.foldl (fun a kv => updIns kv.1 kv.2 a) r.tbl } := by
  intro entries
  induction entries with
  | nil => intro r _; rfl
  | cons p t ih =>
    obtain ⟨k, v⟩ := p
    intro r h
    obtain ⟨hkv, hvar, hsemi⟩ := h (k, v) (by simp)
    simp only [List.map_cons]
    rw [parseLines, if_neg (serialized_ne_return k v)]
    rw [lineStep_serialized r k v hkv hvar hsemi]
    rw [ih _ (fun kv' h' => h kv' (by simp [h']))]
    rfl

/-- Claim C8 counterexample: tokenizing `var var x = 1` records the key
`var x`; re-serializing gives the line `var x = 1`, whose re-tokenization
strips the `var ` prefix and records the different key `x`.  Likewise a
value ending in `;` (from `x = 5;;`) loses its `;` on re-tokenization. -/
theorem c8_counterexample :
    (parse_gml (w "var var x = 1")).tbl = [(w "var x", w "1")] ∧
    (parse_gml (serTbl (parse_gml (w "var var x = 1")).tbl)).tbl = [(w "x", w "1")] ∧
    (parse_gml (serTbl (parse_gml (w "var var x = 1")).tbl)).tbl ≠
      (parse_gml (w "var var x = 1")).tbl ∧
    (parse_gml (w "x = 5;;")).tbl = [(w "x", w "5;")] ∧
    (parse_gml (serTbl (parse_gml (w "x = 5;;")).tbl)).tbl = [(w "x", w "5")] := by
  decide

/-- Claim C8 amended: re-tokenizing the re-serialization of a tokenizer
output reproduces the same values map, provided no re-serialized line
`key = value` begins with `var ` (which the tokenizer would strip again)
or ends with `;` (which it would drop again) — conditions the two
counterexample inputs show to be necessary. -/
theorem c8_roundtrip (s : PyStr)
    (h : ∀ kv ∈ (parse_gml s).tbl,
      leadsWith (w "var ") (kv.1 ++ w " = " ++ kv.2) = false ∧
      trailsWith (w ";") (kv.1 ++ w " = " ++ kv.2) = false) :
    (parse_gml (serTbl (parse_gml s).tbl)).tbl = (parse_gml s).tbl := by
  have hgood := parse_gml_good s
  have hlines : pySplitlines (serTbl (parse_gml s).tbl) =
      (parse_gml s).tbl.map (fun kv => kv.1 ++ w " = " ++ kv.2) := by
    unfold serTbl
    apply pySplitlines_joinNL
    intro l hl
    simp only [List.mem_map] at hl
    obtain ⟨kv, hkv_mem, rfl⟩ := hl
    obtain ⟨hkne, -, -, -, -, hknt, hvnt⟩ := hgood.1 kv hkv_mem
    constructor
    · simp [hkne]
    · intro c hc
      rcases List.mem_append.mp hc with h1 | h1
      · rcases List.mem_append.mp h1 with h2 | h2
        · exact hknt c h2
        · fin_cases h2 <;> decide
      · exact hvnt c h1
  conv_lhs => rw [parse_gml]
  rw [hlines]
  rw [parseLines_serialized (parse_gml s).tbl ⟨[], []⟩
    (fun kv hm => ⟨hgood.1 kv hm, (h kv hm).1, (h kv hm).2⟩)]
  show List.foldl (fun a kv => updIns kv.1 kv.2 a) [] (parse_gml s).tbl = (parse_gml s).tbl
  have hfresh := foldl_updIns_fresh (parse_gml s).tbl [] (by simpa using hgood.2)
  simpa using hfresh

/-- Witness for `c8_roundtrip` on a script with a plain assignment, an
indexed assignment, a call line, a space-indented line and a value
containing ` = `. -/
theorem c8_roundtrip_witness :
    (parse_gml (serTbl (parse_gml
        (w "hp[2] = 5\nname = \"Bob\"\nfoo(1, 2)\n x = 9\nzz = a = b")).tbl)).tbl =
      (parse_gml (w "hp[2] = 5\nname = \"Bob\"\nfoo(1, 2)\n x = 9\nzz = a = b")).tbl :=
  c8_roundtrip (w "hp[2] = 5\nname = \"Bob\"\nfoo(1, 2)\n x = 9\nzz = a = b") (by decide)
